import Mathlib

/-!
Verification of the metric and loss computations of the WasteSemSeg
training code (`utils.py`, `train_icnet_mulit.py`).

Label maps (flattened numpy integer arrays) are embedded as `List ℤ`;
the floating-point arithmetic of the metric functions is idealized as
exact rational arithmetic, NaN-producing numpy divisions as `Option ℚ`
(`none` = NaN), and the real-valued focal loss as exact real arithmetic.
-/

namespace WasteSemSeg

/-! ## Definitions -/

/-! ### `calculate_mean_iu` (utils.py, lines 25-35) -/

/-- The `1e-9` epsilon used by `calculate_mean_iu`. -/
def eps : ℚ := 1 / 1000000000

/-- `np.sum(m == i)`: the number of entries of `m` equal to `i`. -/
def countEq (m : List ℤ) (i : ℤ) : ℕ :=
  (m.filter (fun v => decide (v = i))).length

/-- `np.sum(gt[p == i] == i)`: the number of positions at which the
prediction map and the ground-truth map both hold class `i`. -/
def countBoth (p gt : List ℤ) (i : ℤ) : ℕ :=
  ((p.zip gt).filter (fun x => decide (x.1 = i) && decide (x.2 = i))).length

/-- One iteration of the inner loop of `calculate_mean_iu`: update the
accumulators `(n_ii, t_i, sum_n_ji)` with the counts from one
`(prediction, ground-truth)` pair. -/
def iouStep (i : ℤ) (acc : ℚ × ℚ × ℚ) (pg : List ℤ × List ℤ) : ℚ × ℚ × ℚ :=
  (acc.1 + countBoth pg.1 pg.2 i, acc.2.1 + countEq pg.2 i, acc.2.2 + countEq pg.1 i)

/-- The accumulators `(n_ii, t_i, sum_n_ji)` for class `i` after the inner
loop of `calculate_mean_iu`, each starting at `1e-9`. -/
def classAccums (predictions gts : List (List ℤ)) (i : ℤ) : ℚ × ℚ × ℚ :=
  (predictions.zip gts).foldl (iouStep i) (eps, eps, eps)

/-- The per-class term `n_ii / (t_i + sum_n_ji - n_ii)` added to `sum_iu`. -/
def classIoU (predictions gts : List (List ℤ)) (i : ℤ) : ℚ :=
  (classAccums predictions gts i).1 /
    ((classAccums predictions gts i).2.1 + (classAccums predictions gts i).2.2 -
      (classAccums predictions gts i).1)

/-- `calculate_mean_iu` from `utils.py`: the mean over all classes of the
per-class IoU terms. -/
def calculate_mean_iu (predictions gts : List (List ℤ)) (num_classes : ℕ) : ℚ :=
  (((List.range num_classes).map (fun (i : ℕ) => classIoU predictions gts (i : ℤ))).sum) /
    num_classes

/-! ### The specification's reference algorithm for `calculate_mean_iu` -/

/-- Total count, over all pairs, of positions where both maps hold `i`. -/
def sumCountBoth (predictions gts : List (List ℤ)) (i : ℤ) : ℕ :=
  ((predictions.zip gts).map (fun pg => countBoth pg.1 pg.2 i)).sum

/-- Total count, over all pairs, of ground-truth positions equal to `i`. -/
def sumCountGt (predictions gts : List (List ℤ)) (i : ℤ) : ℕ :=
  ((predictions.zip gts).map (fun pg => countEq pg.2 i)).sum

/-- Total count, over all pairs, of predicted positions equal to `i`. -/
def sumCountPred (predictions gts : List (List ℤ)) (i : ℤ) : ℕ :=
  ((predictions.zip gts).map (fun pg => countEq pg.1 i)).sum

/-- Reference `n_ii`: epsilon plus the accumulated true-positive count. -/
def spec_n_ii (predictions gts : List (List ℤ)) (i : ℤ) : ℚ :=
  eps + (sumCountBoth predictions gts i : ℚ)

/-- Reference `t_i`: epsilon plus the accumulated ground-truth count. -/
def spec_t_i (predictions gts : List (List ℤ)) (i : ℤ) : ℚ :=
  eps + (sumCountGt predictions gts i : ℚ)

/-- Reference `sum_n_ji`: epsilon plus the accumulated prediction count. -/
def spec_sum_n_ji (predictions gts : List (List ℤ)) (i : ℤ) : ℚ :=
  eps + (sumCountPred predictions gts i : ℚ)

/-- Reference per-class IoU: `n_ii / (t_i + sum_n_ji - n_ii)`. -/
def spec_iou (predictions gts : List (List ℤ)) (i : ℤ) : ℚ :=
  spec_n_ii predictions gts i /
    (spec_t_i predictions gts i + spec_sum_n_ji predictions gts i -
      spec_n_ii predictions gts i)

/-- Reference mean IoU: the sum of the per-class IoUs divided by the number
of classes. -/
def spec_mean_iu (predictions gts : List (List ℤ)) (num_classes : ℕ) : ℚ :=
  (((List.range num_classes).map (fun (i : ℕ) => spec_iou predictions gts (i : ℤ))).sum) /
    num_classes

/-! ### Python-level return shape of `calculate_mean_iu` and the
`validate` call site -/

/-- A Python runtime value as far as the `validate` call site is concerned:
a plain float or a sequence of values. -/
inductive PyVal : Type
  | pyfloat (q : ℚ)
  | pyseq (vs : List PyVal)

/-- Iterable unpacking `mean0, mean1, mean2, mean3, mean4, mean5 = e`: it
succeeds only when `e` is a sequence of exactly six elements; a float is
not iterable and yields no binding. -/
def unpackSix : PyVal → Option (PyVal × PyVal × PyVal × PyVal × PyVal × PyVal)
  | PyVal.pyseq [a, b, c, d, e, f] => some (a, b, c, d, e, f)
  | _ => none

/-- The value of the expression `calculate_mean_iu(...)`: the function's
single `return mean_iu` statement returns one float. -/
def calculate_mean_iu_py (predictions gts : List (List ℤ)) (num_classes : ℕ) :
    PyVal :=
  PyVal.pyfloat (calculate_mean_iu predictions gts num_classes)

/-! ### Control flow of the training driver (`train_icnet_mulit.py`) -/

/-- The observable operations of the training and validation drivers. -/
inductive TrainEvent : Type
  | zeroGrad
  | forwardPass
  | computeLoss
  | backwardPass
  | optimizerStep
  | schedulerStep
  | validatePass
  deriving DecidableEq

/-- The operations performed for one batch by `train`: zero gradients,
forward pass, loss computation, optimizer step.  The body contains no
`loss.backward()` call. -/
def train_batch_events : List TrainEvent :=
  [TrainEvent.zeroGrad, TrainEvent.forwardPass, TrainEvent.computeLoss,
    TrainEvent.optimizerStep]

/-- The per-batch sequence required by the specification of the Training
Loop Driver: zero gradients, forward, loss, backward pass, optimizer
step. -/
def spec_batch_events : List TrainEvent :=
  [TrainEvent.zeroGrad, TrainEvent.forwardPass, TrainEvent.computeLoss,
    TrainEvent.backwardPass, TrainEvent.optimizerStep]

/-- `n` repetitions of a loop body's event sequence. -/
def repeatEvents : ℕ → List TrainEvent → List TrainEvent
  | 0, _ => []
  | n + 1, es => es ++ repeatEvents n es

/-- One epoch of `train`: the batch sequence, once per batch. -/
def train_epoch_events (num_batches : ℕ) : List TrainEvent :=
  repeatEvents num_batches train_batch_events

/-- The operations performed by `main`: one initial validation pass, then
for each epoch a training epoch followed by a validation pass.  No
`scheduler.step()` call occurs anywhere in the loop. -/
def main_events (max_epoch num_batches : ℕ) : List TrainEvent :=
  TrainEvent.validatePass ::
    repeatEvents max_epoch
      (train_epoch_events num_batches ++ [TrainEvent.validatePass])

/-! ### `_fast_hist` and `scores` (utils.py, lines 151-181) -/

/-- One cell of `_fast_hist(label_true, label_pred, n_class)`: the number
of pixel positions whose true label passes the mask
`(label_true >= 0) & (label_true < n_class)` and whose linear bincount
index `n_class * label_true + label_pred` equals the index
`n_class * i + j` of the reshaped cell `(i, j)`. -/
def fast_hist (lt lp : List ℤ) (n : ℕ) (i j : ℕ) : ℕ :=
  ((lt.zip lp).filter (fun x =>
    decide (0 ≤ x.1) && decide (x.1 < (n : ℤ)) &&
      decide ((n : ℤ) * x.1 + x.2 = (n : ℤ) * (i : ℤ) + (j : ℤ)))).length

/-- The accumulated histogram of `scores`: the sum of `_fast_hist` over all
`(label_true, label_pred)` map pairs. -/
def hists (lts lps : List (List ℤ)) (n : ℕ) (i j : ℕ) : ℕ :=
  ((lts.zip lps).map (fun x => fast_hist x.1 x.2 n i j)).sum

/-- `hist.sum(axis=1)[i]`: row sum (true-pixel count) of class `i`. -/
def rowSum (lts lps : List (List ℤ)) (n : ℕ) (i : ℕ) : ℕ :=
  ((List.range n).map (fun j => hists lts lps n i j)).sum

/-- `hist.sum(axis=0)[j]`: column sum (predicted-pixel count) of class `j`. -/
def colSum (lts lps : List (List ℤ)) (n : ℕ) (j : ℕ) : ℕ :=
  ((List.range n).map (fun i => hists lts lps n i j)).sum

/-- `hist.sum()`: the total pixel count of the histogram. -/
def totalSum (lts lps : List (List ℤ)) (n : ℕ) : ℕ :=
  ((List.range n).map (fun i => rowSum lts lps n i)).sum

/-- `np.diag(hist).sum()`: the trace of the histogram. -/
def diagSum (lts lps : List (List ℤ)) (n : ℕ) : ℕ :=
  ((List.range n).map (fun i => hists lts lps n i i)).sum

/-- numpy float division as it occurs in `scores`: every division by zero
that arises there is `0 / 0`, which numpy evaluates to NaN; NaN is
modelled as `none`. -/
def npDiv (a b : ℚ) : Option ℚ := if b = 0 then none else some (a / b)

/-- `np.nanmean`: the mean of the non-NaN entries (NaN when all entries
are NaN). -/
def nanmean (l : List (Option ℚ)) : Option ℚ :=
  if (l.filterMap id).length = 0 then none
  else some ((l.filterMap id).sum / (l.filterMap id).length)

/-- `acc = np.diag(hist).sum() / hist.sum()`. -/
def overall_acc (lts lps : List (List ℤ)) (n : ℕ) : Option ℚ :=
  npDiv (diagSum lts lps n) (totalSum lts lps n)

/-- One entry of `np.diag(hist) / hist.sum(axis=1)`. -/
def acc_cls_entry (lts lps : List (List ℤ)) (n i : ℕ) : Option ℚ :=
  npDiv (hists lts lps n i i) (rowSum lts lps n i)

/-- `acc_cls = np.nanmean(np.diag(hist) / hist.sum(axis=1))`. -/
def mean_acc (lts lps : List (List ℤ)) (n : ℕ) : Option ℚ :=
  nanmean ((List.range n).map (fun i => acc_cls_entry lts lps n i))

/-- One entry of
`iu = np.diag(hist) / (hist.sum(axis=1) + hist.sum(axis=0) - np.diag(hist))`. -/
def iu_entry (lts lps : List (List ℤ)) (n i : ℕ) : Option ℚ :=
  npDiv (hists lts lps n i i)
    ((rowSum lts lps n i : ℚ) + (colSum lts lps n i : ℚ) - (hists lts lps n i i : ℚ))

/-- `mean_iu = np.nanmean(iu)`. -/
def mean_iu (lts lps : List (List ℤ)) (n : ℕ) : Option ℚ :=
  nanmean ((List.range n).map (fun i => iu_entry lts lps n i))

/-- One entry of `freq = hist.sum(axis=1) / hist.sum()`. -/
def freq_entry (lts lps : List (List ℤ)) (n i : ℕ) : Option ℚ :=
  npDiv (rowSum lts lps n i) (totalSum lts lps n)

/-- The numpy comparison `freq > 0` (false for NaN). -/
def freqPos (lts lps : List (List ℤ)) (n i : ℕ) : Bool :=
  match freq_entry lts lps n i with
  | some q => decide (0 < q)
  | none => false

/-- Elementwise float multiplication with NaN propagation. -/
def optMul : Option ℚ → Option ℚ → Option ℚ
  | some a, some b => some (a * b)
  | _, _ => none

/-- Float addition with NaN propagation. -/
def optAdd : Option ℚ → Option ℚ → Option ℚ
  | some a, some b => some (a + b)
  | _, _ => none

/-- numpy `.sum()` over a masked float array, with NaN propagation; the
sum of an empty selection is `0.0`. -/
def optSum : List (Option ℚ) → Option ℚ
  | [] => some 0
  | x :: xs => optAdd x (optSum xs)

/-- `fwavacc = (freq[freq > 0] * iu[freq > 0]).sum()`. -/
def fwavacc (lts lps : List (List ℤ)) (n : ℕ) : Option ℚ :=
  optSum (((List.range n).filter (fun i => freqPos lts lps n i)).map
    (fun i => optMul (freq_entry lts lps n i) (iu_entry lts lps n i)))

/-! ### Nan-safe aggregation targets written from the specification's
words, for comparison with the code's aggregation -/

/-- The classes with positive row support (positive true-pixel count). -/
def supportClasses (lts lps : List (List ℤ)) (n : ℕ) : List ℕ :=
  (List.range n).filter (fun i => decide (0 < rowSum lts lps n i))

/-- The classes whose row or column support is positive. -/
def unionClasses (lts lps : List (List ℤ)) (n : ℕ) : List ℕ :=
  (List.range n).filter (fun i => decide (0 < rowSum lts lps n i + colSum lts lps n i))

/-- The per-class IoU value as a plain rational (defined where the
denominator is nonzero). -/
def iuVal (lts lps : List (List ℤ)) (n i : ℕ) : ℚ :=
  (hists lts lps n i i : ℚ) /
    ((rowSum lts lps n i : ℚ) + (colSum lts lps n i : ℚ) - (hists lts lps n i i : ℚ))

/-- Mean per-class accuracy taken only over the classes with positive row
support. -/
def mean_acc_support (lts lps : List (List ℤ)) (n : ℕ) : Option ℚ :=
  if (supportClasses lts lps n).length = 0 then none
  else
    some
      (((supportClasses lts lps n).map
          (fun i => (hists lts lps n i i : ℚ) / (rowSum lts lps n i : ℚ))).sum /
        (supportClasses lts lps n).length)

/-- Mean IoU taken only over the classes with positive row support: the
aggregation the claim asserts for the code's mean IoU. -/
def mean_iu_rowpos (lts lps : List (List ℤ)) (n : ℕ) : Option ℚ :=
  if (supportClasses lts lps n).length = 0 then none
  else
    some (((supportClasses lts lps n).map (fun i => iuVal lts lps n i)).sum /
      (supportClasses lts lps n).length)

/-- Mean IoU taken only over the classes with positive row-or-column
support. -/
def mean_iu_union (lts lps : List (List ℤ)) (n : ℕ) : Option ℚ :=
  if (unionClasses lts lps n).length = 0 then none
  else
    some (((unionClasses lts lps n).map (fun i => iuVal lts lps n i)).sum /
      (unionClasses lts lps n).length)

/-- `Σ (class_frequency × class_IoU)` over the classes with positive
frequency, as a plain rational. -/
def fwavacc_closed (lts lps : List (List ℤ)) (n : ℕ) : ℚ :=
  ((supportClasses lts lps n).map
      (fun i => ((rowSum lts lps n i : ℚ) / (totalSum lts lps n : ℚ)) *
        iuVal lts lps n i)).sum

/-! ### `FocalSigmoidLossFuncV2` (utils.py, lines 57-103), over exact
reals -/

/-- `torch.sigmoid`. -/
noncomputable def sigmoid (x : ℝ) : ℝ := 1 / (1 + Real.exp (-x))

/-- `F.softplus(x, beta, threshold)`: `(1/beta) * log(1 + exp(beta*x))`,
reverting to the identity when `beta * x > threshold`. -/
noncomputable def softplus (x beta threshold : ℝ) : ℝ :=
  if beta * x > threshold then x
  else (1 / beta) * Real.log (1 + Real.exp (beta * x))

/-- The branch-stable `log_probs` of the forward pass:
`torch.where(logits >= 0, softplus(logits,-1,50), logits - softplus(logits,1,50))`. -/
noncomputable def focal_log_probs (x : ℝ) : ℝ :=
  if 0 ≤ x then softplus x (-1) 50 else x - softplus x 1 50

/-- The branch-stable `log_1_probs`:
`torch.where(logits >= 0, -logits + softplus(logits,-1,50), -softplus(logits,1,50))`. -/
noncomputable def focal_log_1_probs (x : ℝ) : ℝ :=
  if 0 ≤ x then -x + softplus x (-1) 50 else -(softplus x 1 50)

/-- `coeff = (label - probs).abs().pow(gamma).neg()` (real power on the
nonnegative base `|label - probs|`). -/
noncomputable def focal_coeff (x label gamma : ℝ) : ℝ :=
  -(|label - sigmoid x| ^ gamma)

/-- `ce = log_probs * label * alpha + log_1_probs * (1 - label) * (1 - alpha)`. -/
noncomputable def focal_ce (x label alpha : ℝ) : ℝ :=
  focal_log_probs x * label * alpha + focal_log_1_probs x * (1 - label) * (1 - alpha)

/-- The forward loss `loss = ce * coeff`. -/
noncomputable def focal_forward (x label alpha gamma : ℝ) : ℝ :=
  focal_ce x label alpha * focal_coeff x label gamma

/-- The backward pass: `d_coeff` is
`(label-probs).abs().pow(gamma-1).mul(gamma).mul(probs).mul(1-probs)`,
negated where `label < probs`; `term1 = d_coeff * ce`;
`d_ce = label*alpha - probs*(2*label*alpha + 1 - label - alpha)`;
`term2 = d_ce * coeff`; the result is `(term1 + term2) * grad_output`. -/
noncomputable def focal_backward (grad_output x label alpha gamma : ℝ) : ℝ :=
  (((if label < sigmoid x
      then -(|label - sigmoid x| ^ (gamma - 1) * gamma * sigmoid x * (1 - sigmoid x))
      else |label - sigmoid x| ^ (gamma - 1) * gamma * sigmoid x * (1 - sigmoid x)) *
      focal_ce x label alpha) +
    (label * alpha - sigmoid x * (label * alpha * 2 + 1 - label - alpha)) *
      focal_coeff x label gamma) * grad_output

/-! ## Lemmas and claim theorems -/

lemma foldl_iouStep (i : ℤ) (l : List (List ℤ × List ℤ)) (a b c : ℚ) :
    l.foldl (iouStep i) (a, b, c) =
      (a + ((l.map (fun pg => countBoth pg.1 pg.2 i)).sum : ℕ),
       b + ((l.map (fun pg => countEq pg.2 i)).sum : ℕ),
       c + ((l.map (fun pg => countEq pg.1 i)).sum : ℕ)) := by
  induction l generalizing a b c with
  | nil => simp
  | cons hd tl ih =>
      simp only [List.foldl_cons, iouStep, ih, List.map_cons, List.sum_cons]
      push_cast
      refine Prod.ext (by ring) (Prod.ext (by ring) (by ring))

lemma classAccums_eq (predictions gts : List (List ℤ)) (i : ℤ) :
    classAccums predictions gts i =
      (spec_n_ii predictions gts i, spec_t_i predictions gts i,
        spec_sum_n_ji predictions gts i) := by
  simp only [classAccums, foldl_iouStep, spec_n_ii, spec_t_i, spec_sum_n_ji,
    sumCountBoth, sumCountGt, sumCountPred]

lemma classIoU_eq_spec (predictions gts : List (List ℤ)) (i : ℤ) :
    classIoU predictions gts i = spec_iou predictions gts i := by
  simp only [classIoU, classAccums_eq, spec_iou]

/-- C1: `calculate_mean_iu` computes exactly the specification's reference
algorithm: accumulators start at epsilon `1e-9`, gain the per-pair counts of
true positives, ground-truth pixels and predicted pixels of each class,
each class contributes `n_ii / (t_i + sum_n_ji - n_ii)`, and the result is
the sum of these terms divided by `num_classes`. -/
theorem calculate_mean_iu_matches_spec (predictions gts : List (List ℤ))
    (num_classes : ℕ) :
    calculate_mean_iu predictions gts num_classes =
      spec_mean_iu predictions gts num_classes := by
  simp only [calculate_mean_iu, spec_mean_iu, classIoU_eq_spec]

/-! ### Bounds on the per-class IoU terms -/

lemma eps_pos : (0 : ℚ) < eps := by norm_num [eps]

lemma countBoth_le_countEq_snd (p gt : List ℤ) (i : ℤ) :
    countBoth p gt i ≤ countEq gt i := by
  induction p generalizing gt with
  | nil => simp [countBoth]
  | cons x xs ih =>
      cases gt with
      | nil => simp [countBoth]
      | cons y ys =>
          have h := ih ys
          simp only [countBoth, countEq] at h ⊢
          rw [List.zip_cons_cons]
          by_cases hx : x = i <;> by_cases hy : y = i <;>
            simp [hx, hy, List.filter_cons] <;> omega

lemma countBoth_le_countEq_fst (p gt : List ℤ) (i : ℤ) :
    countBoth p gt i ≤ countEq p i := by
  induction p generalizing gt with
  | nil => simp [countBoth, countEq]
  | cons x xs ih =>
      cases gt with
      | nil => simp [countBoth]
      | cons y ys =>
          have h := ih ys
          simp only [countBoth, countEq] at h ⊢
          rw [List.zip_cons_cons]
          by_cases hx : x = i <;> by_cases hy : y = i <;>
            simp [hx, hy, List.filter_cons] <;> omega

lemma sumCountBoth_le_sumCountGt (predictions gts : List (List ℤ)) (i : ℤ) :
    sumCountBoth predictions gts i ≤ sumCountGt predictions gts i :=
  List.sum_le_sum (fun pg _ => countBoth_le_countEq_snd pg.1 pg.2 i)

lemma sumCountBoth_le_sumCountPred (predictions gts : List (List ℤ)) (i : ℤ) :
    sumCountBoth predictions gts i ≤ sumCountPred predictions gts i :=
  List.sum_le_sum (fun pg _ => countBoth_le_countEq_fst pg.1 pg.2 i)

lemma classIoU_pos (predictions gts : List (List ℤ)) (i : ℤ) :
    0 < classIoU predictions gts i := by
  rw [classIoU_eq_spec, spec_iou, spec_n_ii, spec_t_i, spec_sum_n_ji]
  have h1 : (sumCountBoth predictions gts i : ℚ) ≤ (sumCountGt predictions gts i : ℚ) := by
    exact_mod_cast sumCountBoth_le_sumCountGt predictions gts i
  have h2 : (sumCountBoth predictions gts i : ℚ) ≤ (sumCountPred predictions gts i : ℚ) := by
    exact_mod_cast sumCountBoth_le_sumCountPred predictions gts i
  have hb : (0 : ℚ) ≤ (sumCountBoth predictions gts i : ℚ) := Nat.cast_nonneg _
  have hg : (0 : ℚ) ≤ (sumCountGt predictions gts i : ℚ) := Nat.cast_nonneg _
  exact div_pos (by linarith [eps_pos]) (by linarith [eps_pos])

lemma classIoU_le_one (predictions gts : List (List ℤ)) (i : ℤ) :
    classIoU predictions gts i ≤ 1 := by
  rw [classIoU_eq_spec, spec_iou, spec_n_ii, spec_t_i, spec_sum_n_ji]
  have h1 : (sumCountBoth predictions gts i : ℚ) ≤ (sumCountGt predictions gts i : ℚ) := by
    exact_mod_cast sumCountBoth_le_sumCountGt predictions gts i
  have h2 : (sumCountBoth predictions gts i : ℚ) ≤ (sumCountPred predictions gts i : ℚ) := by
    exact_mod_cast sumCountBoth_le_sumCountPred predictions gts i
  have hb : (0 : ℚ) ≤ (sumCountBoth predictions gts i : ℚ) := Nat.cast_nonneg _
  rw [div_le_one (by linarith [eps_pos])]
  linarith

lemma sum_bounds (f : ℕ → ℚ) (l : List ℕ) (h : ∀ x ∈ l, 0 < f x ∧ f x ≤ 1) :
    (l ≠ [] → 0 < (l.map f).sum) ∧ (l.map f).sum ≤ l.length := by
  induction l with
  | nil => simp
  | cons x xs ih =>
      have hx := h x (List.mem_cons_self x xs)
      have hxs := ih (fun y hy => h y (List.mem_cons_of_mem x hy))
      have hsum_nonneg : (0 : ℚ) ≤ (xs.map f).sum := by
        rcases List.eq_nil_or_concat xs with hnil | _
        · simp [hnil]
        · rcases xs with _ | ⟨z, zs⟩
          · simp
          · exact le_of_lt (hxs.1 (by simp))
      constructor
      · intro _
        simp only [List.map_cons, List.sum_cons]
        linarith [hx.1]
      · simp only [List.map_cons, List.sum_cons, List.length_cons]
        push_cast
        linarith [hxs.2, hx.2]

/-- C10: for every input and every `num_classes ≥ 1`, `calculate_mean_iu`
returns a value strictly greater than `0` and at most `1`: each per-class
term `n_ii / (t_i + sum_n_ji - n_ii)` lies in `(0, 1]` because the
accumulators start at the same epsilon and the true-positive increment never
exceeds the other two, and the mean of such terms stays in `(0, 1]`. -/
theorem calculate_mean_iu_mem_Ioc (predictions gts : List (List ℤ))
    (num_classes : ℕ) (h : 1 ≤ num_classes) :
    0 < calculate_mean_iu predictions gts num_classes ∧
      calculate_mean_iu predictions gts num_classes ≤ 1 := by
  unfold calculate_mean_iu
  have hb := sum_bounds (fun i => classIoU predictions gts (i : ℤ)) (List.range num_classes)
    (fun x _ => ⟨classIoU_pos predictions gts (x : ℤ), classIoU_le_one predictions gts (x : ℤ)⟩)
  have hne : List.range num_classes ≠ [] := by
    intro hcon
    have := congrArg List.length hcon
    simp at this
    omega
  have hnpos : (0 : ℚ) < (num_classes : ℚ) := by
    exact_mod_cast Nat.lt_of_lt_of_le Nat.zero_lt_one h
  constructor
  · exact div_pos (hb.1 hne) hnpos
  · rw [div_le_one hnpos]
    have := hb.2
    simpa using this

/-- Witness for C10 at a concrete input. -/
theorem calculate_mean_iu_mem_Ioc_witness :
    1 ≤ 2 ∧
      (0 < calculate_mean_iu [[0]] [[0]] 2 ∧ calculate_mean_iu [[0]] [[0]] 2 ≤ 1) :=
  ⟨by decide, calculate_mean_iu_mem_Ioc [[0]] [[0]] 2 (by decide)⟩

/-! ### The absent-class quirk of `calculate_mean_iu` -/

lemma mem_zip_parts {α β : Type} {x : α × β} :
    ∀ {l1 : List α} {l2 : List β}, x ∈ l1.zip l2 → x.1 ∈ l1 ∧ x.2 ∈ l2 := by
  intro l1
  induction l1 with
  | nil => intro l2 h; simp [List.zip] at h
  | cons a as ih =>
      intro l2 h
      cases l2 with
      | nil => simp [List.zip] at h
      | cons b bs =>
          rw [List.zip_cons_cons, List.mem_cons] at h
          rcases h with h | h
          · subst h; exact ⟨List.mem_cons_self _ _, List.mem_cons_self _ _⟩
          · exact ⟨List.mem_cons_of_mem _ (ih h).1, List.mem_cons_of_mem _ (ih h).2⟩

lemma countEq_eq_zero {m : List ℤ} {i : ℤ} (h : i ∉ m) : countEq m i = 0 := by
  unfold countEq
  rw [List.length_eq_zero, List.filter_eq_nil_iff]
  intro a ha
  simp only [decide_eq_true_eq]
  intro hai
  exact h (hai ▸ ha)

lemma sumCountGt_eq_zero {predictions gts : List (List ℤ)} {i : ℤ}
    (hg : ∀ m ∈ gts, i ∉ m) : sumCountGt predictions gts i = 0 := by
  unfold sumCountGt
  rw [List.sum_eq_zero]
  intro x hx
  rw [List.mem_map] at hx
  obtain ⟨pg, hpg, rfl⟩ := hx
  exact countEq_eq_zero (hg _ (mem_zip_parts hpg).2)

lemma sumCountPred_eq_zero {predictions gts : List (List ℤ)} {i : ℤ}
    (hp : ∀ m ∈ predictions, i ∉ m) : sumCountPred predictions gts i = 0 := by
  unfold sumCountPred
  rw [List.sum_eq_zero]
  intro x hx
  rw [List.mem_map] at hx
  obtain ⟨pg, hpg, rfl⟩ := hx
  exact countEq_eq_zero (hp _ (mem_zip_parts hpg).1)

lemma absent_classIoU_eq_one {predictions gts : List (List ℤ)} {i : ℤ}
    (hp : ∀ m ∈ predictions, i ∉ m) (hg : ∀ m ∈ gts, i ∉ m) :
    classIoU predictions gts i = 1 := by
  have hcb : sumCountBoth predictions gts i = 0 :=
    Nat.le_zero.mp (sumCountPred_eq_zero hp ▸ sumCountBoth_le_sumCountPred predictions gts i)
  rw [classIoU_eq_spec, spec_iou, spec_n_ii, spec_t_i, spec_sum_n_ji,
    hcb, sumCountGt_eq_zero hg, sumCountPred_eq_zero hp]
  norm_num
  exact div_self (ne_of_gt eps_pos)

lemma sum_map_split {M : Type} [AddCommMonoid M] (l : List ℕ) (f : ℕ → M) (p : ℕ → Bool) :
    (l.map f).sum =
      ((l.filter p).map f).sum + ((l.filter (fun x => !(p x))).map f).sum := by
  induction l with
  | nil => simp
  | cons x xs ih =>
      by_cases h : p x <;> simp [h, List.filter_cons, ih] <;> abel

lemma range_filter_eq (n i : ℕ) (h : i < n) :
    (List.range n).filter (fun j => decide (j = i)) = [i] := by
  induction n with
  | zero => omega
  | succ m ih =>
      rw [List.range_succ, List.filter_append]
      rcases Nat.lt_or_ge i m with hm | hm
      · rw [ih hm]
        have hne : ¬ (m = i) := by omega
        simp [hne]
      · have him : i = m := by omega
        subst him
        have h1 : (List.range i).filter (fun j => decide (j = i)) = [] := by
          rw [List.filter_eq_nil_iff]
          intro a ha
          rw [List.mem_range] at ha
          simp only [decide_eq_true_eq]
          omega
        simp [h1]

/-- C4: for a class `i` absent from every prediction map and every
ground-truth map, the per-class IoU term of `calculate_mean_iu` is exactly
`epsilon / epsilon = 1`, and that term contributes `1 / num_classes` to the
returned mean. -/
theorem absent_class_contributes (predictions gts : List (List ℤ))
    (num_classes i : ℕ) (hi : i < num_classes)
    (hp : ∀ m ∈ predictions, ((i : ℤ) ∉ m)) (hg : ∀ m ∈ gts, ((i : ℤ) ∉ m)) :
    classIoU predictions gts (i : ℤ) = 1 ∧
    calculate_mean_iu predictions gts num_classes =
      1 / num_classes +
        (((List.range num_classes).filter (fun j => !(decide (j = i)))).map
            (fun (j : ℕ) => classIoU predictions gts (j : ℤ))).sum / num_classes := by
  have hone : classIoU predictions gts (i : ℤ) = 1 := absent_classIoU_eq_one hp hg
  refine ⟨hone, ?_⟩
  unfold calculate_mean_iu
  rw [sum_map_split (List.range num_classes)
    (fun (j : ℕ) => classIoU predictions gts (j : ℤ)) (fun j => decide (j = i))]
  rw [range_filter_eq num_classes i hi]
  simp only [List.map_cons, List.map_nil, List.sum_cons, List.sum_nil, hone]
  rw [add_div]
  norm_num

/-- Witness for C4 at a concrete input: class `1` occurs in neither the
prediction `[[0]]` nor the ground truth `[[0]]` with two classes. -/
theorem absent_class_contributes_witness :
    1 < 2 ∧ (∀ m ∈ [[(0 : ℤ)]], ((1 : ℤ) ∉ m)) ∧ (∀ m ∈ [[(0 : ℤ)]], ((1 : ℤ) ∉ m)) ∧
    (classIoU [[(0 : ℤ)]] [[(0 : ℤ)]] (1 : ℤ) = 1 ∧
      calculate_mean_iu [[(0 : ℤ)]] [[(0 : ℤ)]] 2 =
        1 / 2 +
          (((List.range 2).filter (fun j => !(decide (j = 1)))).map
              (fun (j : ℕ) => classIoU [[(0 : ℤ)]] [[(0 : ℤ)]] (j : ℤ))).sum / 2) :=
  ⟨by decide, by decide, by decide,
    by
      have := absent_class_contributes [[(0 : ℤ)]] [[(0 : ℤ)]] 2 1 (by decide)
        (by decide) (by decide)
      simpa using this⟩

/-! ### The `validate` call site -/

/-- C9: `calculate_mean_iu` returns a single float, so the `validate`
statement that unpacks its result into the six variables `mean0..mean5`
can never bind them: unpacking a float into six names fails for every
input. -/
theorem validate_unpack_fails (predictions gts : List (List ℤ))
    (num_classes : ℕ) :
    unpackSix (calculate_mean_iu_py predictions gts num_classes) = none := rfl

/-! ### Control flow of the training driver -/

lemma mem_repeatEvents {e : TrainEvent} {es : List TrainEvent} {n : ℕ}
    (h : e ∈ repeatEvents n es) : e ∈ es := by
  induction n with
  | zero => simp [repeatEvents] at h
  | succ m ih =>
      rw [repeatEvents, List.mem_append] at h
      exact h.elim id ih

/-- C7: the batch body of `train` performs zero-grad, forward pass and loss
computation and then immediately steps the optimizer: it contains no
backward pass, so it differs from the specified
zero-grad/forward/loss/backward/step sequence. -/
theorem train_batch_omits_backward :
    TrainEvent.backwardPass ∉ train_batch_events ∧
      train_batch_events ≠ spec_batch_events := by
  constructor
  · decide
  · decide

/-- C8: across a run of `main` with any number of epochs and batches, the
learning-rate scheduler's `step` is invoked zero times — not once per
epoch: the `StepLR` object is constructed but `scheduler.step()` never
appears in the epoch loop. -/
theorem scheduler_never_steps (max_epoch num_batches : ℕ) :
    List.count TrainEvent.schedulerStep (main_events max_epoch num_batches) = 0 := by
  rw [List.count_eq_zero]
  intro hmem
  rw [main_events, List.mem_cons] at hmem
  rcases hmem with h | h
  · exact absurd h (by decide)
  · have h2 := mem_repeatEvents h
    rw [List.mem_append] at h2
    rcases h2 with h3 | h3
    · exact absurd (mem_repeatEvents h3) (by decide)
    · exact absurd h3 (by decide)

/-! ### `scores`: the histogram on identical inputs -/

lemma lin_index_inj {n : ℕ} {v : ℤ} {i j : ℕ} (h0 : 0 ≤ v) (h1 : v < (n : ℤ))
    (hj : j < n) (h : (n : ℤ) * v + v = (n : ℤ) * (i : ℤ) + (j : ℤ)) :
    v = (i : ℤ) ∧ v = (j : ℤ) := by
  have hjn : ((j : ℕ) : ℤ) < (n : ℤ) := by exact_mod_cast hj
  have hj0 : (0 : ℤ) ≤ ((j : ℕ) : ℤ) := by exact_mod_cast Nat.zero_le j
  rcases lt_trichotomy v ((i : ℕ) : ℤ) with hlt | heq | hgt
  · exfalso
    have e1 : (n : ℤ) * (((i : ℕ) : ℤ) - v) = v - ((j : ℕ) : ℤ) := by ring_nf; linarith
    have e2 : (1 : ℤ) ≤ ((i : ℕ) : ℤ) - v := by omega
    have e3 : (n : ℤ) ≤ (n : ℤ) * (((i : ℕ) : ℤ) - v) :=
      le_mul_of_one_le_right (by positivity) e2
    rw [e1] at e3
    omega
  · refine ⟨heq, ?_⟩
    rw [heq] at h
    linarith
  · exfalso
    have e1 : (n : ℤ) * (v - ((i : ℕ) : ℤ)) = ((j : ℕ) : ℤ) - v := by ring_nf; linarith
    have e2 : (1 : ℤ) ≤ v - ((i : ℕ) : ℤ) := by omega
    have e3 : (n : ℤ) ≤ (n : ℤ) * (v - ((i : ℕ) : ℤ)) :=
      le_mul_of_one_le_right (by positivity) e2
    rw [e1] at e3
    omega

lemma zip_self {α : Type} (l : List α) : l.zip l = l.map (fun a => (a, a)) := by
  induction l with
  | nil => rfl
  | cons x xs ih => rw [List.zip_cons_cons, ih, List.map_cons]

lemma fast_hist_self (m : List ℤ) (n i j : ℕ) :
    fast_hist m m n i j =
      (m.filter (fun v =>
        decide (0 ≤ v) && decide (v < (n : ℤ)) &&
          decide ((n : ℤ) * v + v = (n : ℤ) * (i : ℤ) + (j : ℤ)))).length := by
  unfold fast_hist
  rw [zip_self, List.filter_map, List.length_map]
  rfl

lemma fast_hist_self_diag (m : List ℤ) (n i : ℕ) (hi : i < n) :
    fast_hist m m n i i = countEq m (i : ℤ) := by
  rw [fast_hist_self]
  unfold countEq
  congr 1
  apply List.filter_congr
  intro v _
  rw [← Bool.decide_and, ← Bool.decide_and, decide_eq_decide]
  constructor
  · rintro ⟨⟨h0, h1⟩, h2⟩
    exact (lin_index_inj h0 h1 hi h2).1
  · rintro rfl
    exact ⟨⟨by exact_mod_cast Nat.zero_le i, by exact_mod_cast hi⟩, by ring⟩

lemma fast_hist_self_offdiag (m : List ℤ) (n i j : ℕ) (hi : i < n) (hj : j < n)
    (hij : i ≠ j) : fast_hist m m n i j = 0 := by
  rw [fast_hist_self, List.length_eq_zero, List.filter_eq_nil_iff]
  intro v _
  intro hc
  simp only [Bool.and_eq_true, decide_eq_true_eq] at hc
  obtain ⟨⟨h0, h1⟩, h2⟩ := hc
  obtain ⟨hvi, hvj⟩ := lin_index_inj h0 h1 hj h2
  apply hij
  have hcast : ((i : ℕ) : ℤ) = ((j : ℕ) : ℤ) := by rw [← hvi, ← hvj]
  exact_mod_cast hcast

lemma hists_self_diag (maps : List (List ℤ)) (n i : ℕ) (hi : i < n) :
    hists maps maps n i i = (maps.map (fun m => countEq m (i : ℤ))).sum := by
  unfold hists
  rw [zip_self, List.map_map]
  congr 1
  apply List.map_congr_left
  intro m _
  show fast_hist m m n i i = countEq m (i : ℤ)
  exact fast_hist_self_diag m n i hi

lemma hists_self_offdiag (maps : List (List ℤ)) (n i j : ℕ) (hi : i < n)
    (hj : j < n) (hij : i ≠ j) : hists maps maps n i j = 0 := by
  unfold hists
  rw [zip_self, List.map_map, List.sum_eq_zero]
  intro x hx
  rw [List.mem_map] at hx
  obtain ⟨m, _, rfl⟩ := hx
  show fast_hist m m n i j = 0
  exact fast_hist_self_offdiag m n i j hi hj hij

lemma sum_range_single (n i : ℕ) (hi : i < n) (f : ℕ → ℕ)
    (h0 : ∀ j, j < n → j ≠ i → f j = 0) :
    ((List.range n).map f).sum = f i := by
  rw [sum_map_split (List.range n) f (fun j => decide (j = i)),
    range_filter_eq n i hi]
  have hz : (((List.range n).filter (fun j => !(decide (j = i)))).map f).sum = 0 := by
    rw [List.sum_eq_zero]
    intro x hx
    rw [List.mem_map] at hx
    obtain ⟨j, hj, rfl⟩ := hx
    rw [List.mem_filter, List.mem_range] at hj
    apply h0 j hj.1
    simpa using hj.2
  simp [hz]

lemma rowSum_self (maps : List (List ℤ)) (n i : ℕ) (hi : i < n) :
    rowSum maps maps n i = hists maps maps n i i := by
  unfold rowSum
  exact sum_range_single n i hi _
    (fun j hj hij => hists_self_offdiag maps n i j hi hj (fun h => hij h.symm))

lemma colSum_self (maps : List (List ℤ)) (n j : ℕ) (hj : j < n) :
    colSum maps maps n j = hists maps maps n j j := by
  unfold colSum
  exact sum_range_single n j hj _
    (fun i hi hij => hists_self_offdiag maps n i j hi hj hij)

lemma totalSum_self (maps : List (List ℤ)) (n : ℕ) :
    totalSum maps maps n = diagSum maps maps n := by
  unfold totalSum diagSum
  congr 1
  apply List.map_congr_left
  intro i hi
  rw [List.mem_range] at hi
  exact rowSum_self maps n i hi

lemma countEq_pos {m : List ℤ} {i : ℤ} (h : i ∈ m) : 0 < countEq m i := by
  unfold countEq
  have hmem : i ∈ m.filter (fun v => decide (v = i)) :=
    List.mem_filter.mpr ⟨h, by simp⟩
  exact List.length_pos.mpr (List.ne_nil_of_mem hmem)

lemma hists_self_diag_pos (maps : List (List ℤ)) (n i : ℕ) (hi : i < n)
    (h : ∃ m ∈ maps, (i : ℤ) ∈ m) : 0 < hists maps maps n i i := by
  obtain ⟨m, hm, him⟩ := h
  rw [hists_self_diag maps n i hi]
  calc 0 < countEq m (i : ℤ) := countEq_pos him
    _ ≤ _ := List.le_sum_of_mem
      (List.mem_map_of_mem (fun m => countEq m (i : ℤ)) hm)

lemma filterMap_id_map_some {α : Type} (l : List α) (c : ℚ) :
    (l.map (fun _ => some c)).filterMap id = l.map (fun _ => c) := by
  induction l with
  | nil => rfl
  | cons x xs ih => simp [ih]

lemma sum_map_one {α : Type} (l : List α) :
    (l.map (fun _ => (1 : ℚ))).sum = l.length := by
  induction l with
  | nil => simp
  | cons x xs ih =>
      simp only [List.map_cons, List.sum_cons, List.length_cons, ih]
      push_cast
      ring

/-- C5 counterexample: with `n_class = 0` and one pair of empty identical
maps, every hypothesis of the claim holds (the class-range and
every-class-present conditions are vacuous), yet the overall accuracy is
the NaN `0 / 0`, not `1.0`. -/
theorem scores_identical_counterexample :
    ([([] : List ℤ)] ≠ ([] : List (List ℤ))) ∧
    (∀ m ∈ [([] : List ℤ)], ∀ v ∈ m, 0 ≤ v ∧ v < ((0 : ℕ) : ℤ)) ∧
    (∀ c : ℕ, c < 0 → ∃ m ∈ [([] : List ℤ)], ((c : ℤ) ∈ m)) ∧
    ¬(overall_acc [[]] [[]] 0 = some 1 ∧ mean_iu [[]] [[]] 0 = some 1) := by
  refine ⟨by simp, by simp, fun c hc => absurd hc (Nat.not_lt_zero c), by decide⟩

/-- C5 (amended with `0 < n_class`): for a nonempty family of identical
prediction/ground-truth maps whose values lie in `[0, n_class)` and in which
every class occurs, `scores` reports overall accuracy `1` and mean IoU `1`. -/
theorem scores_identical_perfect (maps : List (List ℤ)) (n : ℕ) (hn : 0 < n)
    (hne : maps ≠ [])
    (hrange : ∀ m ∈ maps, ∀ v ∈ m, 0 ≤ v ∧ v < (n : ℤ))
    (hall : ∀ c : ℕ, c < n → ∃ m ∈ maps, ((c : ℤ) ∈ m)) :
    overall_acc maps maps n = some 1 ∧ mean_iu maps maps n = some 1 := by
  have hdiagpos : 0 < diagSum maps maps n := by
    unfold diagSum
    calc 0 < hists maps maps n 0 0 := hists_self_diag_pos maps n 0 hn (hall 0 hn)
      _ ≤ _ := List.le_sum_of_mem
        (List.mem_map_of_mem (fun i => hists maps maps n i i) (List.mem_range.mpr hn))
  have hdne : ((diagSum maps maps n : ℚ)) ≠ 0 := by
    exact_mod_cast hdiagpos.ne'
  constructor
  · unfold overall_acc npDiv
    rw [totalSum_self, if_neg hdne, div_self hdne]
  · unfold mean_iu
    have hentry : ∀ i ∈ List.range n,
        iu_entry maps maps n i = (fun _ : ℕ => some (1 : ℚ)) i := by
      intro i hi
      rw [List.mem_range] at hi
      unfold iu_entry npDiv
      rw [rowSum_self maps n i hi, colSum_self maps n i hi]
      have hpos : 0 < hists maps maps n i i :=
        hists_self_diag_pos maps n i hi (hall i hi)
      have hcast : ((hists maps maps n i i : ℚ)) ≠ 0 := by exact_mod_cast hpos.ne'
      have hd : (hists maps maps n i i : ℚ) + (hists maps maps n i i : ℚ) -
          (hists maps maps n i i : ℚ) = (hists maps maps n i i : ℚ) := by ring
      rw [hd, if_neg hcast, div_self hcast]
    rw [List.map_congr_left hentry]
    unfold nanmean
    rw [filterMap_id_map_some]
    have hlen : ((List.range n).map (fun _ => (1 : ℚ))).length = n := by simp
    have hsum : ((List.range n).map (fun _ => (1 : ℚ))).sum = n := by
      rw [sum_map_one]; simp
    rw [if_neg (by rw [hlen]; omega), hsum, hlen]
    rw [div_self (by exact_mod_cast hn.ne')]

/-- Witness for the amended C5 at a concrete input. -/
theorem scores_identical_perfect_witness :
    (0 < 2) ∧ ([[(0 : ℤ), 1]] ≠ ([] : List (List ℤ))) ∧
    (∀ m ∈ [[(0 : ℤ), 1]], ∀ v ∈ m, 0 ≤ v ∧ v < ((2 : ℕ) : ℤ)) ∧
    (∀ c : ℕ, c < 2 → ∃ m ∈ [[(0 : ℤ), 1]], ((c : ℤ) ∈ m)) ∧
    (overall_acc [[(0 : ℤ), 1]] [[(0 : ℤ), 1]] 2 = some 1 ∧
      mean_iu [[(0 : ℤ), 1]] [[(0 : ℤ), 1]] 2 = some 1) := by
  have hall : ∀ c : ℕ, c < 2 → ∃ m ∈ [[(0 : ℤ), 1]], ((c : ℤ) ∈ m) := by
    intro c hc
    interval_cases c
    · exact ⟨[0, 1], by simp, by simp⟩
    · exact ⟨[0, 1], by simp, by simp⟩
  exact ⟨by decide, by decide, by decide, hall,
    scores_identical_perfect [[(0 : ℤ), 1]] 2 (by decide) (by decide) (by decide) hall⟩

/-! ### Nan-safe aggregation in `scores` -/

lemma diag_le_rowSum (lts lps : List (List ℤ)) (n i : ℕ) (hi : i < n) :
    hists lts lps n i i ≤ rowSum lts lps n i :=
  List.le_sum_of_mem
    (List.mem_map_of_mem (fun j => hists lts lps n i j) (List.mem_range.mpr hi))

lemma diag_le_colSum (lts lps : List (List ℤ)) (n i : ℕ) (hi : i < n) :
    hists lts lps n i i ≤ colSum lts lps n i :=
  List.le_sum_of_mem
    (List.mem_map_of_mem (fun k => hists lts lps n k i) (List.mem_range.mpr hi))

lemma rowSum_le_totalSum (lts lps : List (List ℤ)) (n i : ℕ) (hi : i < n) :
    rowSum lts lps n i ≤ totalSum lts lps n :=
  List.le_sum_of_mem
    (List.mem_map_of_mem (fun k => rowSum lts lps n k) (List.mem_range.mpr hi))

lemma filterMap_id_map_ite {α : Type} (l : List α) (c : α → Bool) (g : α → ℚ) :
    (l.map (fun a => if c a = true then some (g a) else none)).filterMap id =
      (l.filter c).map g := by
  induction l with
  | nil => rfl
  | cons x xs ih =>
      by_cases h : c x = true <;> simp [h, List.filter_cons, ih]

lemma mean_acc_eq_support (lts lps : List (List ℤ)) (n : ℕ) :
    mean_acc lts lps n = mean_acc_support lts lps n := by
  unfold mean_acc mean_acc_support nanmean supportClasses
  have key : ((List.range n).map (fun i => acc_cls_entry lts lps n i)).filterMap id =
      ((List.range n).filter (fun i => decide (0 < rowSum lts lps n i))).map
        (fun i => (hists lts lps n i i : ℚ) / (rowSum lts lps n i : ℚ)) := by
    rw [← filterMap_id_map_ite (List.range n)
      (fun i => decide (0 < rowSum lts lps n i))
      (fun i => (hists lts lps n i i : ℚ) / (rowSum lts lps n i : ℚ))]
    congr 1
    apply List.map_congr_left
    intro i _
    unfold acc_cls_entry npDiv
    by_cases h : rowSum lts lps n i = 0
    · simp [h]
    · have h1 : ¬((rowSum lts lps n i : ℚ) = 0) := by exact_mod_cast h
      have h2 : 0 < rowSum lts lps n i := Nat.pos_of_ne_zero h
      simp [h1, h2]
  rw [key]
  simp only [List.length_map]

lemma iu_entry_eq (lts lps : List (List ℤ)) (n i : ℕ) (hi : i < n) :
    iu_entry lts lps n i =
      if decide (0 < rowSum lts lps n i + colSum lts lps n i) = true
      then some (iuVal lts lps n i) else none := by
  unfold iu_entry npDiv iuVal
  by_cases h : rowSum lts lps n i + colSum lts lps n i = 0
  · have hr : rowSum lts lps n i = 0 := by omega
    have hc : colSum lts lps n i = 0 := by omega
    have hd : hists lts lps n i i = 0 :=
      Nat.le_zero.mp (hr ▸ diag_le_rowSum lts lps n i hi)
    simp [hr, hc, hd, h]
  · have hpos : 0 < rowSum lts lps n i + colSum lts lps n i := Nat.pos_of_ne_zero h
    have hdr : (hists lts lps n i i : ℚ) ≤ (rowSum lts lps n i : ℚ) := by
      exact_mod_cast diag_le_rowSum lts lps n i hi
    have hdc : (hists lts lps n i i : ℚ) ≤ (colSum lts lps n i : ℚ) := by
      exact_mod_cast diag_le_colSum lts lps n i hi
    have h3 : (0 : ℚ) < (rowSum lts lps n i : ℚ) + (colSum lts lps n i : ℚ) := by
      exact_mod_cast hpos
    have hden : (rowSum lts lps n i : ℚ) + (colSum lts lps n i : ℚ) -
        (hists lts lps n i i : ℚ) ≠ 0 := by
      have : (0 : ℚ) < (rowSum lts lps n i : ℚ) + (colSum lts lps n i : ℚ) -
          (hists lts lps n i i : ℚ) := by linarith
      exact this.ne'
    simp [hden, hpos]

lemma mean_iu_eq_union (lts lps : List (List ℤ)) (n : ℕ) :
    mean_iu lts lps n = mean_iu_union lts lps n := by
  unfold mean_iu mean_iu_union nanmean unionClasses
  have key : ((List.range n).map (fun i => iu_entry lts lps n i)).filterMap id =
      ((List.range n).filter
        (fun i => decide (0 < rowSum lts lps n i + colSum lts lps n i))).map
        (fun i => iuVal lts lps n i) := by
    rw [← filterMap_id_map_ite (List.range n)
      (fun i => decide (0 < rowSum lts lps n i + colSum lts lps n i))
      (fun i => iuVal lts lps n i)]
    congr 1
    apply List.map_congr_left
    intro i hi
    rw [List.mem_range] at hi
    exact iu_entry_eq lts lps n i hi
  rw [key]
  simp only [List.length_map]

lemma optSum_map_some (l : List ℕ) (g : ℕ → ℚ) :
    optSum (l.map (fun i => some (g i))) = some ((l.map g).sum) := by
  induction l with
  | nil => rfl
  | cons x xs ih => simp [optSum, optAdd, ih]

lemma fwavacc_eq_closed (lts lps : List (List ℤ)) (n : ℕ) :
    fwavacc lts lps n = some (fwavacc_closed lts lps n) := by
  unfold fwavacc fwavacc_closed
  have hfilter : (List.range n).filter (fun i => freqPos lts lps n i) =
      supportClasses lts lps n := by
    unfold supportClasses
    apply List.filter_congr
    intro i hi
    rw [List.mem_range] at hi
    unfold freqPos freq_entry npDiv
    by_cases ht : (totalSum lts lps n : ℚ) = 0
    · rw [if_pos ht]
      have ht' : totalSum lts lps n = 0 := by exact_mod_cast ht
      have hr : rowSum lts lps n i = 0 :=
        Nat.le_zero.mp (ht' ▸ rowSum_le_totalSum lts lps n i hi)
      simp [hr]
    · rw [if_neg ht]
      have htq : (0 : ℚ) < (totalSum lts lps n : ℚ) := by
        have : 0 < totalSum lts lps n :=
          Nat.pos_of_ne_zero (fun hz => ht (by exact_mod_cast hz))
        exact_mod_cast this
      show decide (0 < (rowSum lts lps n i : ℚ) / (totalSum lts lps n : ℚ)) = _
      rw [decide_eq_decide]
      constructor
      · intro hdiv
        by_contra hzero
        have hr0 : rowSum lts lps n i = 0 := by omega
        rw [hr0] at hdiv
        norm_num at hdiv
      · intro hr
        exact div_pos (by exact_mod_cast hr) htq
  rw [hfilter]
  have hmap : (supportClasses lts lps n).map
      (fun i => optMul (freq_entry lts lps n i) (iu_entry lts lps n i)) =
      (supportClasses lts lps n).map
        (fun i => some (((rowSum lts lps n i : ℚ) / (totalSum lts lps n : ℚ)) *
          iuVal lts lps n i)) := by
    apply List.map_congr_left
    intro i hi
    rw [supportClasses, List.mem_filter, List.mem_range] at hi
    obtain ⟨hin, hrow⟩ := hi
    have hrowpos : 0 < rowSum lts lps n i := by simpa using hrow
    have htot : 0 < totalSum lts lps n :=
      lt_of_lt_of_le hrowpos (rowSum_le_totalSum lts lps n i hin)
    have ht : ¬((totalSum lts lps n : ℚ) = 0) := by
      exact_mod_cast htot.ne'
    rw [iu_entry_eq lts lps n i hin,
      if_pos (by simp only [decide_eq_true_eq]; omega)]
    unfold freq_entry npDiv
    rw [if_neg ht]
    rfl
  rw [hmap, optSum_map_some]

/-- C6 counterexample: with `label_trues = [[0, 0]]`,
`label_preds = [[0, 1]]` and `n_class = 2`, class `1` has zero row support
but positive column support; its IoU entry is the plain number `0`, which
`np.nanmean` keeps, so the code's mean IoU is `1/4`, not the
row-support-only mean `1/2` that the claim asserts. -/
theorem scores_rowpos_counterexample :
    mean_iu [[0, 0]] [[0, 1]] 2 ≠ mean_iu_rowpos [[0, 0]] [[0, 1]] 2 ∧
    mean_iu [[0, 0]] [[0, 1]] 2 = some (1 / 4) ∧
    mean_iu_rowpos [[0, 0]] [[0, 1]] 2 = some (1 / 2) := by
  have h00 : hists [[0, 0]] [[0, 1]] 2 0 0 = 1 := by decide
  have h11 : hists [[0, 0]] [[0, 1]] 2 1 1 = 0 := by decide
  have hr0 : rowSum [[0, 0]] [[0, 1]] 2 0 = 2 := by decide
  have hr1 : rowSum [[0, 0]] [[0, 1]] 2 1 = 0 := by decide
  have hc0 : colSum [[0, 0]] [[0, 1]] 2 0 = 1 := by decide
  have hc1 : colSum [[0, 0]] [[0, 1]] 2 1 = 1 := by decide
  have hsup : supportClasses [[0, 0]] [[0, 1]] 2 = [0] := by decide
  have hmi : mean_iu [[0, 0]] [[0, 1]] 2 = some (1 / 4) := by
    norm_num [mean_iu, nanmean, iu_entry, npDiv, List.range_succ, h00, h11, hr0, hr1,
      hc0, hc1, List.filterMap_cons, List.filterMap_nil, List.sum_cons, List.sum_nil,
      List.length_cons]
  have hmr : mean_iu_rowpos [[0, 0]] [[0, 1]] 2 = some (1 / 2) := by
    norm_num [mean_iu_rowpos, hsup, iuVal, h00, hr0, hc0]
  refine ⟨?_, hmi, hmr⟩
  rw [hmi, hmr]
  intro hcon
  rw [Option.some_inj] at hcon
  norm_num at hcon

/-- C6 (amended): in `scores`, classes with zero row support are excluded
from the mean accuracy; classes are excluded from the mean IoU exactly when
both their row and their column support are zero (a class with zero row but
positive column support contributes the value `0`); and the
frequency-weighted accuracy equals `Σ freq_i · IoU_i` over the classes with
positive frequency, with no NaN contribution. -/
theorem scores_nan_safe (lts lps : List (List ℤ)) (n : ℕ) :
    mean_acc lts lps n = mean_acc_support lts lps n ∧
    mean_iu lts lps n = mean_iu_union lts lps n ∧
    fwavacc lts lps n = some (fwavacc_closed lts lps n) :=
  ⟨mean_acc_eq_support lts lps n, mean_iu_eq_union lts lps n,
    fwavacc_eq_closed lts lps n⟩

/-! ### The focal forward value at the specification's literal point -/

lemma sigmoid_zero : sigmoid 0 = 1 / 2 := by
  unfold sigmoid
  rw [neg_zero, Real.exp_zero]
  norm_num

lemma focal_log_probs_zero : focal_log_probs 0 = -Real.log 2 := by
  unfold focal_log_probs softplus
  rw [if_pos le_rfl, if_neg (by norm_num)]
  rw [mul_zero, Real.exp_zero]
  norm_num

lemma focal_coeff_literal : focal_coeff 0 1 2 = -(1 / 4) := by
  unfold focal_coeff
  rw [sigmoid_zero]
  rw [show |1 - (1 : ℝ) / 2| = 1 / 2 by norm_num]
  rw [show (2 : ℝ) = ((2 : ℕ) : ℝ) by norm_num, Real.rpow_natCast]
  norm_num

lemma focal_ce_literal : focal_ce 0 1 (1 / 4) = -(Real.log 2) / 4 := by
  unfold focal_ce
  rw [focal_log_probs_zero]
  ring

lemma focal_forward_literal : focal_forward 0 1 (1 / 4) 2 = Real.log 2 / 16 := by
  unfold focal_forward
  rw [focal_ce_literal, focal_coeff_literal]
  ring

/-- C3 counterexample: at logits `0`, label `1`, alpha `0.25`, gamma `2`
the code's modulating factor is `-(1-0.5)^2 = -0.25`, not the `+0.25` of
the spec's precomputed literal, and the returned loss is positive
(`log 2 / 16 ≈ +0.0433`), so it is not the negative literal `≈ -0.0433`. -/
theorem focal_forward_literal_counterexample :
    focal_coeff 0 1 2 ≠ 1 / 4 ∧ ¬(focal_forward 0 1 (1 / 4) 2 < 0) := by
  constructor
  · rw [focal_coeff_literal]
    norm_num
  · rw [focal_forward_literal]
    have := Real.log_two_gt_d9
    intro hcon
    nlinarith

/-- C3 (amended): at logits `0`, label `1`, alpha `0.25`, gamma `2` the
forward pass gives `coeff = -(1-0.5)^2 = -0.25`,
`ce = 0.25 * log(0.5) ≈ -0.1733`, and
`loss = ce * coeff = log 2 / 16 ≈ +0.0433`. -/
theorem focal_forward_at_literal :
    focal_coeff 0 1 2 = -(1 / 4) ∧
    focal_ce 0 1 (1 / 4) = (1 / 4) * Real.log (1 / 2) ∧
    |focal_ce 0 1 (1 / 4) - -(1733 / 10000)| < 1 / 10000 ∧
    focal_forward 0 1 (1 / 4) 2 = Real.log 2 / 16 ∧
    |focal_forward 0 1 (1 / 4) 2 - 433 / 10000| < 1 / 10000 := by
  have hgt := Real.log_two_gt_d9
  have hlt := Real.log_two_lt_d9
  refine ⟨focal_coeff_literal, ?_, ?_, focal_forward_literal, ?_⟩
  · rw [focal_ce_literal, show (1 : ℝ) / 2 = 2⁻¹ by norm_num, Real.log_inv]
    ring
  · rw [focal_ce_literal, abs_lt]
    constructor <;> nlinarith
  · rw [focal_forward_literal, abs_lt]
    constructor <;> nlinarith

/-! ### The focal backward pass is the exact derivative of the forward
pass -/

lemma sigmoid_pos (x : ℝ) : 0 < sigmoid x := by
  unfold sigmoid
  positivity

lemma sigmoid_lt_one (x : ℝ) : sigmoid x < 1 := by
  unfold sigmoid
  rw [div_lt_one (by positivity)]
  linarith [Real.exp_pos (-x)]

lemma one_sub_sigmoid (x : ℝ) :
    1 - sigmoid x = Real.exp (-x) / (1 + Real.exp (-x)) := by
  unfold sigmoid
  have hne : (1 : ℝ) + Real.exp (-x) ≠ 0 := by positivity
  field_simp

lemma hasDerivAt_sigmoid (x : ℝ) :
    HasDerivAt sigmoid (sigmoid x * (1 - sigmoid x)) x := by
  have h1 : HasDerivAt (fun t : ℝ => -t) (-1) x := (hasDerivAt_id x).neg
  have h2 : HasDerivAt (fun t => Real.exp (-t)) (Real.exp (-x) * -1) x := h1.exp
  have h3 : HasDerivAt (fun t => 1 + Real.exp (-t)) (Real.exp (-x) * -1) x :=
    h2.const_add 1
  have hne : (1 : ℝ) + Real.exp (-x) ≠ 0 := by positivity
  have h4 := h3.inv hne
  have hval : sigmoid x * (1 - sigmoid x) =
      -(Real.exp (-x) * -1) / (1 + Real.exp (-x)) ^ 2 := by
    rw [one_sub_sigmoid]
    unfold sigmoid
    field_simp
    ring
  have heq : sigmoid = fun t => (1 + Real.exp (-t))⁻¹ := by
    funext t
    unfold sigmoid
    rw [one_div]
  rw [hval, heq]
  exact h4

lemma log_one_add_exp_neg (x : ℝ) :
    Real.log (1 + Real.exp (-x)) = -x + Real.log (1 + Real.exp x) := by
  have h1 : (1 : ℝ) + Real.exp (-x) = Real.exp (-x) * (1 + Real.exp x) := by
    rw [mul_add, mul_one, ← Real.exp_add, show -x + x = (0 : ℝ) by ring,
      Real.exp_zero]
    ring
  rw [h1, Real.log_mul (Real.exp_ne_zero _) (by positivity), Real.log_exp]

lemma focal_log_probs_eq (x : ℝ) : focal_log_probs x = Real.log (sigmoid x) := by
  have hlog : Real.log (sigmoid x) = -Real.log (1 + Real.exp (-x)) := by
    unfold sigmoid
    rw [one_div, Real.log_inv]
  unfold focal_log_probs softplus
  by_cases hx : 0 ≤ x
  · rw [if_pos hx, if_neg (by nlinarith : ¬((-1 : ℝ) * x > 50)), hlog]
    rw [show (-1 : ℝ) * x = -x by ring]
    ring
  · rw [if_neg hx, if_neg (by nlinarith : ¬((1 : ℝ) * x > 50)), hlog]
    rw [show (1 : ℝ) * x = x by ring, log_one_add_exp_neg]
    ring

lemma focal_log_1_probs_eq (x : ℝ) :
    focal_log_1_probs x = Real.log (1 - sigmoid x) := by
  have hlog : Real.log (1 - sigmoid x) = -x - Real.log (1 + Real.exp (-x)) := by
    rw [one_sub_sigmoid, Real.log_div (Real.exp_ne_zero _) (by positivity),
      Real.log_exp]
  unfold focal_log_1_probs softplus
  by_cases hx : 0 ≤ x
  · rw [if_pos hx, if_neg (by nlinarith : ¬((-1 : ℝ) * x > 50)), hlog]
    rw [show (-1 : ℝ) * x = -x by ring]
    ring
  · rw [if_neg hx, if_neg (by nlinarith : ¬((1 : ℝ) * x > 50)), hlog]
    rw [show (1 : ℝ) * x = x by ring, log_one_add_exp_neg]
    ring

lemma focal_ce_eq (x l a : ℝ) :
    focal_ce x l a =
      a * l * Real.log (sigmoid x) + (1 - a) * (1 - l) * Real.log (1 - sigmoid x) := by
  unfold focal_ce
  rw [focal_log_probs_eq, focal_log_1_probs_eq]
  ring

lemma hasDerivAt_log_sigmoid (x : ℝ) :
    HasDerivAt (fun t => Real.log (sigmoid t)) (1 - sigmoid x) x := by
  have h := (hasDerivAt_sigmoid x).log (sigmoid_pos x).ne'
  convert h using 1
  rw [eq_div_iff (sigmoid_pos x).ne']
  ring

lemma hasDerivAt_log_one_sub_sigmoid (x : ℝ) :
    HasDerivAt (fun t => Real.log (1 - sigmoid t)) (-sigmoid x) x := by
  have h0 : HasDerivAt (fun t => 1 - sigmoid t) (-(sigmoid x * (1 - sigmoid x))) x :=
    (hasDerivAt_sigmoid x).const_sub 1
  have hpos : 0 < 1 - sigmoid x := by linarith [sigmoid_lt_one x]
  have h := h0.log hpos.ne'
  convert h using 1
  rw [eq_div_iff hpos.ne']
  ring

lemma hasDerivAt_focal_ce (x l a : ℝ) :
    HasDerivAt (fun t => focal_ce t l a)
      (l * a - sigmoid x * (l * a * 2 + 1 - l - a)) x := by
  have hfun : (fun t => focal_ce t l a) =
      (fun t => a * l * Real.log (sigmoid t) +
        (1 - a) * (1 - l) * Real.log (1 - sigmoid t)) := by
    funext t
    exact focal_ce_eq t l a
  rw [hfun]
  have h1 := (hasDerivAt_log_sigmoid x).const_mul (a * l)
  have h2 := (hasDerivAt_log_one_sub_sigmoid x).const_mul ((1 - a) * (1 - l))
  have h := h1.add h2
  convert h using 1
  ring

lemma hasDerivAt_focal_coeff_one (x γ : ℝ) :
    HasDerivAt (fun t => focal_coeff t 1 γ)
      (|1 - sigmoid x| ^ (γ - 1) * γ * sigmoid x * (1 - sigmoid x)) x := by
  have hpos : ∀ t, 0 < 1 - sigmoid t := fun t => by linarith [sigmoid_lt_one t]
  have hfun : (fun t => focal_coeff t 1 γ) = (fun t => -((1 - sigmoid t) ^ γ)) := by
    funext t
    unfold focal_coeff
    rw [abs_of_pos (hpos t)]
  rw [hfun]
  have h0 : HasDerivAt (fun t => 1 - sigmoid t) (-(sigmoid x * (1 - sigmoid x))) x :=
    (hasDerivAt_sigmoid x).const_sub 1
  have h1 : HasDerivAt (fun t => (1 - sigmoid t) ^ γ)
      (-(sigmoid x * (1 - sigmoid x)) * γ * (1 - sigmoid x) ^ (γ - 1)) x :=
    h0.rpow_const (Or.inl (hpos x).ne')
  have h := h1.neg
  convert h using 1
  rw [abs_of_pos (hpos x)]
  ring

lemma hasDerivAt_focal_coeff_zero (x γ : ℝ) :
    HasDerivAt (fun t => focal_coeff t 0 γ)
      (-(|0 - sigmoid x| ^ (γ - 1) * γ * sigmoid x * (1 - sigmoid x))) x := by
  have hfun : (fun t => focal_coeff t 0 γ) = (fun t => -(sigmoid t ^ γ)) := by
    funext t
    unfold focal_coeff
    rw [zero_sub, abs_neg, abs_of_pos (sigmoid_pos t)]
  rw [hfun]
  have h1 : HasDerivAt (fun t => sigmoid t ^ γ)
      (sigmoid x * (1 - sigmoid x) * γ * sigmoid x ^ (γ - 1)) x :=
    (hasDerivAt_sigmoid x).rpow_const (Or.inl (sigmoid_pos x).ne')
  have h := h1.neg
  convert h using 1
  rw [zero_sub, abs_neg, abs_of_pos (sigmoid_pos x)]
  ring

/-- C2: for the binary labels of the focal loss contract, the closed form
`(term1 + term2)` computed by `backward` — `d_coeff * ce` with the
sign-flipped `d_coeff`, plus `d_ce * coeff` — is the exact derivative of
the forward loss with respect to the logits, and `backward` returns the
upstream gradient times that closed form. -/
theorem focal_backward_correct (g x l a γ : ℝ) (hl : l = 0 ∨ l = 1) :
    HasDerivAt (fun t => focal_forward t l a γ) (focal_backward 1 x l a γ) x ∧
    focal_backward g x l a γ = g * focal_backward 1 x l a γ := by
  constructor
  · have hce := hasDerivAt_focal_ce x l a
    rcases hl with rfl | rfl
    · have hco := hasDerivAt_focal_coeff_zero x γ
      have h := hce.mul hco
      have hfun : (fun t => focal_forward t 0 a γ) =
          fun t => focal_ce t 0 a * focal_coeff t 0 γ := rfl
      rw [hfun]
      convert h using 1
      unfold focal_backward
      rw [if_pos (sigmoid_pos x)]
      ring
    · have hco := hasDerivAt_focal_coeff_one x γ
      have h := hce.mul hco
      have hfun : (fun t => focal_forward t 1 a γ) =
          fun t => focal_ce t 1 a * focal_coeff t 1 γ := rfl
      rw [hfun]
      convert h using 1
      unfold focal_backward
      rw [if_neg (by linarith [sigmoid_lt_one x] : ¬((1 : ℝ) < sigmoid x))]
      ring
  · unfold focal_backward
    by_cases h : l < sigmoid x
    · rw [if_pos h]
      ring
    · rw [if_neg h]
      ring

/-- Witness for C2 at a concrete input. -/
theorem focal_backward_correct_witness :
    ((1 : ℝ) = 0 ∨ (1 : ℝ) = 1) ∧
    (HasDerivAt (fun t => focal_forward t 1 (1 / 4) 2) (focal_backward 1 0 1 (1 / 4) 2) 0 ∧
      focal_backward 2 0 1 (1 / 4) 2 = 2 * focal_backward 1 0 1 (1 / 4) 2) :=
  ⟨Or.inr rfl, focal_backward_correct 2 0 1 (1 / 4) 2 (Or.inr rfl)⟩

end WasteSemSeg
